import Mathlib

/-!
Verification of the doximity/cookies library: a shallow embedding of
`sessions.go` and the secure-cookie manager file, together with models of the
external collaborators they delegate to (the `goRailsYourself/crypto` message
encryptor, `encoding/json`, and `net.SplitHostPort`), and proofs about the
claims of the specification.

Conventions of the embedding:
* Go byte strings (cookie values, payloads, keys) are `List Nat` with values
  reduced modulo 256 where arithmetic occurs.
* Go errors are the inductive `CookieError`; fallible Go functions return
  `Except CookieError _`.
* The `http.ResponseWriter` is the list of `Set-Cookie` headers written so far;
  `http.SetCookie` appends to it.
* Host strings are `List Char` so that the port-splitting logic is plain
  structural recursion.
-/

set_option maxHeartbeats 1000000

/-- Error taxonomy of the library: `noCookie` is Go's `http.ErrNoCookie`,
`parseError` / `integrityError` are the envelope failures of the
authenticated encryptor, `decodeError` / `encodeError` are serializer
failures, `validationError` is a session self-validation failure, and
`addrError` carries the message of a `net.AddrError` from `SplitHostPort`. -/
inductive CookieError where
  | noCookie
  | parseError
  | integrityError
  | decodeError
  | encodeError
  | validationError
  | addrError (msg : String)
deriving DecidableEq

/-- Embedding of Go's `http.Cookie` (the fields this library touches).
`value` is the raw byte string of the cookie value; `maxAge` is the `int`
MaxAge field; `expires` stands in for the `time.Time` Expires field;
`sameSite` is the integer `http.SameSite` code. -/
structure Cookie where
  name : String := ""
  value : List Nat := []
  domain : String := ""
  path : String := ""
  httpOnly : Bool := false
  secure : Bool := false
  maxAge : Int := 0
  expires : Nat := 0
  partitioned : Bool := false
  sameSite : Nat := 0
deriving DecidableEq

/-- Embedding of `CookieOptions` from the source. `maxAge` is a
`time.Duration`, i.e. a count of nanoseconds. -/
structure CookieOptions where
  domain : String := ""
  path : String := ""
  httpOnly : Bool := false
  secure : Bool := false
  maxAge : Int := 0
  expires : Nat := 0
  partitioned : Bool := false
  sameSite : Nat := 0
deriving DecidableEq

/-- The incoming `http.Request`: its `Host` header and its cookies
(name, raw value) in order. -/
structure Request where
  host : List Char := []
  cookies : List (String × List Nat) := []

/-- The outgoing `http.ResponseWriter`, as the list of cookies written with
`http.SetCookie` so far. -/
abbrev Response := List Cookie

/-- Go's `req.Cookie(name)`: the first cookie with the given name, or
`http.ErrNoCookie` when absent. -/
def Request.cookie (req : Request) (name : String) : Except CookieError Cookie :=
  match req.cookies.find? (fun p => p.1 == name) with
  | some p => Except.ok { name := p.1, value := p.2 }
  | none => Except.error CookieError.noCookie

/-- Conversion of a `time.Duration` (nanoseconds) to whole seconds as done by
`int(d.Seconds())` in `SecureCookieManager.Set`: truncation toward zero.
Go routes this through `float64`; for the magnitudes considered in the claims
(and far beyond) the float conversion is exact, so the model uses exact
integer T-division. -/
def durationSeconds (d : Int) : Int :=
  Int.tdiv d 1000000000

/-- Modelled from the spec: the key-derivation function
(`crypto.KeyGenerator.CacheGenerate`, external to this repository).
Deterministic in (secret, iterations, label) and returning exactly
`outLen` bytes; the body is a stand-in mixing function for the real
PBKDF2-style stretcher. -/
def cacheGenerate (secret : String) (iterations : Nat) (label : String) (outLen : Nat) : List Nat :=
  (List.range outLen).map
    (fun i =>
      ((secret.toList.map Char.toNat).sum * 131
        + (label.toList.map Char.toNat).sum * 31
        + iterations * 17 + i * 7 + i) % 256)

/-- Modelled from the spec: the state of `crypto.MessageEncryptor` (external):
a 32-byte encryption key and a 64-byte signing key (the `NullMsgSerializer`
serializer of the source is the identity on byte strings, so it does not
appear). -/
structure MessageEncryptor where
  key : List Nat
  signKey : List Nat

/-- Fixed initialization-vector length of the algorithm suite. -/
def ivLen : Nat := 16

/-- Fixed integrity-tag length of the algorithm suite. -/
def tagLen : Nat := 32

/-- Modelled from the spec: the keystream a symmetric cipher derives from the
encryption key and the fresh IV; `n` bytes. -/
def keystream (key : List Nat) (iv : List Nat) (n : Nat) : List Nat :=
  (List.range n).map (fun i => (key.sum * 131 + iv.sum * 31 + i * 11 + 3) % 256)

/-- Bytewise XOR (the cipher's combine step; XOR keeps byte values < 256). -/
def xorBytes (a b : List Nat) : List Nat :=
  List.zipWith Nat.xor a b

/-- Modelled from the spec: the integrity tag over (IV, ciphertext) under the
signing key; always `tagLen` bytes. -/
def computeTag (signKey iv ct : List Nat) : List Nat :=
  (List.range tagLen).map
    (fun j => (signKey.sum * 251 + iv.sum * 131 + ct.sum * 31 + ct.length * 17 + j * 7 + 5) % 256)

/-- Modelled from the spec: `encryptAndSign` of the authenticated encryptor.
`iv` is the fresh random IV consumed by the call (passed explicitly since the
model is pure). The envelope is the fixed-length-field concatenation
IV ++ ciphertext ++ tag, one of the unambiguous encodings the spec allows. -/
def MessageEncryptor.encryptAndSign (me : MessageEncryptor) (iv : List Nat) (p : List Nat) : List Nat :=
  let ct := xorBytes p (keystream me.key iv p.length)
  iv ++ ct ++ computeTag me.signKey iv ct

/-- Modelled from the spec: `decryptAndVerify`. Parses the envelope into
(IV, ciphertext, tag), validating the fixed lengths (ParseError on an
envelope too short); recomputes the expected tag and compares (IntegrityError
on mismatch); only then decrypts. -/
def MessageEncryptor.decryptAndVerify (me : MessageEncryptor) (env : List Nat) : Except CookieError (List Nat) :=
  if env.length < ivLen + tagLen then Except.error CookieError.parseError
  else
    let iv := env.take ivLen
    let rest := env.drop ivLen
    let ct := rest.take (rest.length - tagLen)
    let tag := rest.drop (rest.length - tagLen)
    if computeTag me.signKey iv ct = tag then
      Except.ok (xorBytes ct (keystream me.key iv ct.length))
    else Except.error CookieError.integrityError

/-- Embedding of `CookieEncryptor` from the source. -/
structure CookieEncryptor where
  messageEncryptor : MessageEncryptor

/-- Embedding of `NewCookieEncryptor`: derives the 32-byte encryption key
under the purpose label "encrypted cookie" and the 64-byte signing key under
the purpose label "signed encrypted cookie". -/
def NewCookieEncryptor (secret : String) (iterations : Nat) : CookieEncryptor :=
  { messageEncryptor :=
      { key := cacheGenerate secret iterations ("encrypted cookie") 32
        signKey := cacheGenerate secret iterations ("signed encrypted cookie") 64 } }

/-- Embedding of `CookieEncryptor.Encrypt`: replaces the cookie's value with
the envelope. `iv` is the randomness consumed by the underlying
`EncryptAndSign` call. -/
def CookieEncryptor.Encrypt (ce : CookieEncryptor) (iv : List Nat) (c : Cookie) : Except CookieError Cookie :=
  Except.ok { c with value := ce.messageEncryptor.encryptAndSign iv c.value }

/-- Embedding of `CookieEncryptor.Decrypt`: an empty value is reported as
`http.ErrNoCookie`; otherwise the envelope is verified and decrypted and the
cookie's value replaced with the plaintext. -/
def CookieEncryptor.Decrypt (ce : CookieEncryptor) (c : Cookie) : Except CookieError Cookie :=
  if c.value = [] then Except.error CookieError.noCookie
  else
    match ce.messageEncryptor.decryptAndVerify c.value with
    | Except.error e => Except.error e
    | Except.ok v => Except.ok { c with value := v }

/-- Embedding of `SecureCookieManager`. Its `Encryptor` and `Encoder` fields
are represented by their actions on the cookie's value field, which is
exactly what `CookieEncryptor.Encrypt`/`Decrypt` and the `CookieEncoder`
interface touch: `encodeValue`/`decodeValue` are `Encoder.Encode`/`Decode`,
`encryptValue`/`decryptValue` are `Encryptor.Encrypt`/`Decrypt`. -/
structure SecureCookieManager (V : Type) where
  encryptValue : List Nat → Except CookieError (List Nat)
  decryptValue : List Nat → Except CookieError (List Nat)
  encodeValue : V → Except CookieError (List Nat)
  decodeValue : List Nat → Except CookieError V

/-- Embedding of `SecureCookieManager.Set`: build the cookie from the options
(`nil` options default), encode the value into it, encrypt it, and only then
write it to the response. On an encoding or encryption error the error is
returned and the response left untouched (the Go version additionally returns
the partially built cookie next to the error; the claims concern the error
and the response). -/
def SecureCookieManager.Set {V : Type} (cm : SecureCookieManager V) (w : Response)
    (name : String) (opts0 : Option CookieOptions) (v : V) :
    Response × Except CookieError Cookie :=
  let opts := opts0.getD {}
  let cookie : Cookie :=
    { name := name
      domain := opts.domain
      path := opts.path
      httpOnly := opts.httpOnly
      secure := opts.secure
      maxAge := durationSeconds opts.maxAge
      expires := opts.expires
      partitioned := opts.partitioned
      sameSite := opts.sameSite }
  match cm.encodeValue v with
  | Except.error e => (w, Except.error e)
  | Except.ok bs =>
    let cookie := { cookie with value := bs }
    match cm.encryptValue cookie.value with
    | Except.error e => (w, Except.error e)
    | Except.ok ev =>
      let cookie := { cookie with value := ev }
      (w ++ [cookie], Except.ok cookie)

/-- Embedding of `SecureCookieManager.Get`: look the cookie up on the request
(`http.ErrNoCookie` when absent), decrypt it, decode the plaintext into the
out value. Returns the decoded value together with the decrypted cookie. -/
def SecureCookieManager.Get {V : Type} (cm : SecureCookieManager V) (req : Request)
    (name : String) : Except CookieError (V × Cookie) :=
  match req.cookie name with
  | Except.error e => Except.error e
  | Except.ok c =>
    match cm.decryptValue c.value with
    | Except.error e => Except.error e
    | Except.ok dv =>
      let c := { c with value := dv }
      match cm.decodeValue c.value with
      | Except.error e => Except.error e
      | Except.ok v => Except.ok (v, c)

/-- Embedding of `SecureCookieManager.Delete`: writes a cookie with the zero
value and `MaxAge = -1` and never fails. -/
def SecureCookieManager.Delete {V : Type} (cm : SecureCookieManager V) (w : Response)
    (name : String) (opts0 : Option CookieOptions) :
    Response × Except CookieError Cookie :=
  let opts := opts0.getD {}
  let cookie : Cookie :=
    { name := name
      httpOnly := opts.httpOnly
      domain := opts.domain
      secure := opts.secure
      path := opts.path
      maxAge := -1 }
  (w ++ [cookie], Except.ok cookie)

/-- Index of the last occurrence of a character, as in Go's
`last(hostPort, ':')`. -/
def lastIndexOf : List Char → Char → Option Nat
  | [], _ => none
  | a :: as, c =>
    match lastIndexOf as c with
    | some i => some (i + 1)
    | none => if a = c then some 0 else none

/-- Index of the first occurrence of a character, as in Go's
`bytealg.IndexByteString`. -/
def firstIndexOf : List Char → Char → Option Nat
  | [], _ => none
  | a :: as, c => if a = c then some 0 else (firstIndexOf as c).map (fun i => i + 1)

/-- Model of Go's `net.SplitHostPort` (standard library, external to this
repository): the port starts after the last colon; a bracketed
`[host]:port` form strips the brackets; stray colons or brackets are
`AddrError`s. The error messages are condensed but the error cases are
those of the Go function. -/
def splitHostPort (s : List Char) : Except CookieError (List Char × List Char) :=
  match lastIndexOf s ':' with
  | none => Except.error (CookieError.addrError ("missing port in address"))
  | some i =>
    let hostJK : Except CookieError (List Char × Nat × Nat) :=
      if s.head? = some '[' then
        match firstIndexOf s ']' with
        | none => Except.error (CookieError.addrError ("missing right bracket in address"))
        | some e =>
          if e + 1 = s.length then
            Except.error (CookieError.addrError ("missing port in address"))
          else if e + 1 = i then
            Except.ok ((s.drop 1).take (e - 1), 1, e + 1)
          else if s.get? (e + 1) = some ':' then
            Except.error (CookieError.addrError ("too many colons in address"))
          else
            Except.error (CookieError.addrError ("missing port in address"))
      else
        let host := s.take i
        if (firstIndexOf host ':').isSome then
          Except.error (CookieError.addrError ("too many colons in address"))
        else Except.ok (host, 0, 0)
    match hostJK with
    | Except.error e => Except.error e
    | Except.ok (host, j, k) =>
      if (firstIndexOf (s.drop j) '[').isSome then
        Except.error (CookieError.addrError ("unexpected left bracket in address"))
      else if (firstIndexOf (s.drop k) ']').isSome then
        Except.error (CookieError.addrError ("unexpected right bracket in address"))
      else Except.ok (host, s.drop (i + 1))

/-- Embedding of `CookieSessionManager`: the secure cookie manager, the cookie
name, and the configured trusted domain. `V` is the concrete session type
behind the `Session` interface. -/
structure CookieSessionManager (V : Type) where
  cm : SecureCookieManager V
  name : String
  domain : String

/-- Embedding of `NewCookieSessionManager`. -/
def NewCookieSessionManager {V : Type} (cm : SecureCookieManager V) (name : String)
    (domain : String) : CookieSessionManager V :=
  { cm := cm, name := name, domain := domain }

/-- Embedding of `CookieSessionManager.Current`: delegates to `Get` on the
session cookie and returns its error; the decoded session is the result
(`Get` fills the caller's session object in Go). -/
def CookieSessionManager.Current {V : Type} (sm : CookieSessionManager V) (req : Request) :
    Except CookieError V :=
  match sm.cm.Get req sm.name with
  | Except.error e => Except.error e
  | Except.ok (v, _) => Except.ok v

/-- Embedding of `CookieSessionManager.Update`: if the host contains a colon
it is split (an error aborts the update); the hosts `localhost`, `127.0.0.1`
and `::1` get relaxed options `{Path: "/"}`, every other host gets
`{Path: "/", Domain: sm.domain, Secure: true}`; then `Set` is called. -/
def CookieSessionManager.Update {V : Type} (sm : CookieSessionManager V) (w : Response)
    (req : Request) (sess : V) : Response × Except CookieError Cookie :=
  let hostStep : Except CookieError (List Char) :=
    if req.host.contains ':' then
      match splitHostPort req.host with
      | Except.error e => Except.error e
      | Except.ok (h, _) => Except.ok h
    else Except.ok req.host
  match hostStep with
  | Except.error e => (w, Except.error e)
  | Except.ok host =>
    let opts : CookieOptions :=
      if host = "localhost".toList ∨ host = "127.0.0.1".toList ∨ host = "::1".toList then
        { path := "/" }
      else
        { path := "/", domain := sm.domain, secure := true }
    sm.cm.Set w sm.name (some opts) sess

/-- The double-quote character, written numerically. -/
def quoteChar : Char := Char.ofNat 34

/-- The opening curly bracket character, written numerically. -/
def lcurlChar : Char := Char.ofNat 123

/-- The closing curly bracket character, written numerically. -/
def rcurlChar : Char := Char.ofNat 125

/-- Decimal digit test on characters (codes 48 through 57). -/
def isDigitC (c : Char) : Bool :=
  48 ≤ c.toNat && c.toNat ≤ 57

/-- Numeric value of a decimal digit character. -/
def digitVal (c : Char) : Nat :=
  c.toNat - 48

/-- Decimal digit character of a value below ten. -/
def digitChar (n : Nat) : Char :=
  Char.ofNat (48 + n)

mutual

/-- Modelled from the spec: the value domain of the structured
(JSON-equivalent) encoder behind `encoding/json` (external to this
repository). Mutual so that arrays and objects can be reasoned about by
mutual induction. -/
inductive Json where
  | null : Json
  | bool (b : Bool) : Json
  | num (n : Nat) : Json
  | str (s : List Char) : Json
  | arr (xs : JsonList) : Json
  | obj (ms : JsonMembers) : Json

/-- Array elements of a `Json` value. -/
inductive JsonList where
  | nil : JsonList
  | cons (hd : Json) (tl : JsonList) : JsonList

/-- Object members (key, value) of a `Json` value. -/
inductive JsonMembers where
  | nil : JsonMembers
  | cons (key : List Char) (val : Json) (tl : JsonMembers) : JsonMembers

end

/-- Fuel-indexed auxiliary for decimal printing of a `Nat` (most significant
digit first); fuel `n + 1` is always enough. -/
def encNatAux : Nat → Nat → List Char → List Char
  | 0, _, acc => acc
  | fuel + 1, n, acc =>
    if n < 10 then digitChar n :: acc
    else encNatAux fuel (n / 10) (digitChar (n % 10) :: acc)

/-- Decimal printing of a `Nat`, most significant digit first. -/
def encNat (n : Nat) : List Char :=
  encNatAux (n + 1) n []

mutual

/-- JSON text of a value: compact form, no spaces, no string escapes
(representable strings contain no double quote). -/
def encJson : Json → List Char
  | Json.null => ['n', 'u', 'l', 'l']
  | Json.bool b => if b then ['t', 'r', 'u', 'e'] else ['f', 'a', 'l', 's', 'e']
  | Json.num n => encNat n
  | Json.str s => quoteChar :: s ++ [quoteChar]
  | Json.arr xs => '[' :: encList xs ++ [']']
  | Json.obj ms => lcurlChar :: encMembers ms ++ [rcurlChar]

/-- JSON text of comma-separated array elements. -/
def encList : JsonList → List Char
  | JsonList.nil => []
  | JsonList.cons x JsonList.nil => encJson x
  | JsonList.cons x (JsonList.cons y tl) =>
    encJson x ++ ',' :: encList (JsonList.cons y tl)

/-- JSON text of comma-separated object members. -/
def encMembers : JsonMembers → List Char
  | JsonMembers.nil => []
  | JsonMembers.cons k v JsonMembers.nil =>
    quoteChar :: k ++ quoteChar :: ':' :: encJson v
  | JsonMembers.cons k v (JsonMembers.cons k2 v2 tl) =>
    quoteChar :: k ++ quoteChar :: ':' :: encJson v ++
      ',' :: encMembers (JsonMembers.cons k2 v2 tl)

end

mutual

/-- Representable JSON values: every string (and key) is free of the double
quote, so its text needs no escaping. -/
def Json.representable : Json → Bool
  | Json.null => true
  | Json.bool _ => true
  | Json.num _ => true
  | Json.str s => s.all (fun c => c ≠ quoteChar)
  | Json.arr xs => JsonList.representable xs
  | Json.obj ms => JsonMembers.representable ms

/-- Representability of array elements. -/
def JsonList.representable : JsonList → Bool
  | JsonList.nil => true
  | JsonList.cons x tl => Json.representable x && JsonList.representable tl

/-- Representability of object members. -/
def JsonMembers.representable : JsonMembers → Bool
  | JsonMembers.nil => true
  | JsonMembers.cons k v tl =>
    k.all (fun c => c ≠ quoteChar) && Json.representable v && JsonMembers.representable tl

end

mutual

/-- Parser budget of a value: parsing `v` needs fuel above `jsize v`. -/
def jsize : Json → Nat
  | Json.null => 1
  | Json.bool _ => 1
  | Json.num _ => 1
  | Json.str _ => 1
  | Json.arr xs => lsize xs + 1
  | Json.obj ms => msize ms + 1

/-- Parser budget of array elements. -/
def lsize : JsonList → Nat
  | JsonList.nil => 0
  | JsonList.cons x tl => jsize x + lsize tl + 1

/-- Parser budget of object members. -/
def msize : JsonMembers → Nat
  | JsonMembers.nil => 0
  | JsonMembers.cons _ v tl => jsize v + msize tl + 1

end

/-- Greedy decimal-digit scanner with accumulator. -/
def parseDigits : Nat → List Char → Nat × List Char
  | acc, [] => (acc, [])
  | acc, c :: cs =>
    if isDigitC c then parseDigits (acc * 10 + digitVal c) cs else (acc, c :: cs)

/-- Splits a character list at the first double quote (the scanned prefix and
the remainder starting with the quote, if any). -/
def spanNotQuote : List Char → List Char × List Char
  | [] => ([], [])
  | c :: cs =>
    if c = quoteChar then ([], c :: cs)
    else
      let p := spanNotQuote cs
      (c :: p.1, p.2)

mutual

/-- Fuel-indexed JSON value parser (mutual with element and member parsers):
returns the value and the unconsumed suffix. -/
def parseJson : Nat → List Char → Option (Json × List Char)
  | 0, _ => none
  | fuel + 1, s =>
    match s with
    | [] => none
    | c :: cs =>
      if c = 'n' then
        match cs with
        | 'u' :: 'l' :: 'l' :: rest => some (Json.null, rest)
        | _ => none
      else if c = 't' then
        match cs with
        | 'r' :: 'u' :: 'e' :: rest => some (Json.bool true, rest)
        | _ => none
      else if c = 'f' then
        match cs with
        | 'a' :: 'l' :: 's' :: 'e' :: rest => some (Json.bool false, rest)
        | _ => none
      else if c = quoteChar then
        match (spanNotQuote cs).2 with
        | q :: rest => if q = quoteChar then some (Json.str (spanNotQuote cs).1, rest) else none
        | [] => none
      else if c = '[' then
        match cs with
        | [] => none
        | d :: ds =>
          if d = ']' then some (Json.arr JsonList.nil, ds)
          else
            match parseList fuel cs with
            | some (xs, rest) =>
              match rest with
              | e :: es => if e = ']' then some (Json.arr xs, es) else none
              | [] => none
            | none => none
      else if c = lcurlChar then
        match cs with
        | [] => none
        | d :: ds =>
          if d = rcurlChar then some (Json.obj JsonMembers.nil, ds)
          else
            match parseMembers fuel cs with
            | some (ms, rest) =>
              match rest with
              | e :: es => if e = rcurlChar then some (Json.obj ms, es) else none
              | [] => none
            | none => none
      else if isDigitC c then
        some (Json.num (parseDigits (digitVal c) cs).1, (parseDigits (digitVal c) cs).2)
      else none

/-- Fuel-indexed parser for one or more comma-separated array elements. -/
def parseList : Nat → List Char → Option (JsonList × List Char)
  | 0, _ => none
  | fuel + 1, s =>
    match parseJson fuel s with
    | none => none
    | some (x, rest) =>
      match rest with
      | [] => some (JsonList.cons x JsonList.nil, [])
      | d :: rest1 =>
        if d = ',' then
          match parseList fuel rest1 with
          | some (tl, r) => some (JsonList.cons x tl, r)
          | none => none
        else some (JsonList.cons x JsonList.nil, d :: rest1)

/-- Fuel-indexed parser for one or more comma-separated object members. -/
def parseMembers : Nat → List Char → Option (JsonMembers × List Char)
  | 0, _ => none
  | fuel + 1, s =>
    match s with
    | [] => none
    | c :: cs =>
      if c = quoteChar then
        match (spanNotQuote cs).2 with
        | q :: rest0 =>
          if q = quoteChar then
            match rest0 with
            | colon :: rest1 =>
              if colon = ':' then
                match parseJson fuel rest1 with
                | some (v, rest2) =>
                  match rest2 with
                  | [] => some (JsonMembers.cons (spanNotQuote cs).1 v JsonMembers.nil, [])
                  | d :: rest3 =>
                    if d = ',' then
                      match parseMembers fuel rest3 with
                      | some (tl, r) => some (JsonMembers.cons (spanNotQuote cs).1 v tl, r)
                      | none => none
                    else some (JsonMembers.cons (spanNotQuote cs).1 v JsonMembers.nil, d :: rest3)
                | none => none
              else none
            | [] => none
          else none
        | [] => none
      else none

end

/-- Modelled from the spec: `json.Marshal` of a representable value — the
UTF-8 bytes of its JSON text (representable texts are ASCII-compatible
character lists, mapped bytewise). -/
def jsonMarshal (v : Json) : List Nat :=
  (encJson v).map Char.toNat

/-- Modelled from the spec: `json.Unmarshal` — parse the full byte string as
one JSON value, rejecting trailing input. -/
def jsonUnmarshal (bs : List Nat) : Option Json :=
  let s := bs.map Char.ofNat
  match parseJson (s.length + 1) s with
  | some (v, []) => some v
  | _ => none

/-- Embedding of `JSONCookieEncoder.Encode`: marshals the value into the
cookie's value field (marshalling of a representable JSON value does not
fail). -/
def JSONCookieEncoder.Encode (v : Json) (c : Cookie) : Except CookieError Cookie :=
  Except.ok { c with value := jsonMarshal v }

/-- Embedding of `JSONCookieEncoder.Decode`: unmarshals the cookie's value
field, failing with a decode error on malformed input. -/
def JSONCookieEncoder.Decode (c : Cookie) : Except CookieError Json :=
  match jsonUnmarshal c.value with
  | some v => Except.ok v
  | none => Except.error CookieError.decodeError

/-- Concrete encryptor for the end-to-end scenarios. -/
def demoCE : CookieEncryptor := NewCookieEncryptor ("k") 1

/-- Concrete randomness consumed by the demo encryptions. -/
def demoIV : List Nat := (List.range 16).map (fun i => (i * 13 + 7) % 256)

/-- Concrete session value of the end-to-end scenarios, the object with a
single member uid = 42. -/
def demoSessVal : Json :=
  Json.obj (JsonMembers.cons ("uid".toList) (Json.num 42) JsonMembers.nil)

/-- Concrete secure cookie manager: the JSON encoder together with `demoCE`
(the manager fields are the value-field actions of
`JSONCookieEncoder.Encode`/`Decode` and `demoCE.Encrypt`/`Decrypt`). -/
def demoManager : SecureCookieManager Json :=
  { encryptValue := fun bs =>
      match demoCE.Encrypt demoIV { value := bs } with
      | Except.error e => Except.error e
      | Except.ok c => Except.ok c.value
    decryptValue := fun bs =>
      match demoCE.Decrypt { value := bs } with
      | Except.error e => Except.error e
      | Except.ok c => Except.ok c.value
    encodeValue := fun v =>
      match JSONCookieEncoder.Encode v {} with
      | Except.error e => Except.error e
      | Except.ok c => Except.ok c.value
    decodeValue := fun bs => JSONCookieEncoder.Decode { value := bs } }

/-- Concrete session manager over `demoManager`. -/
def demoSM : CookieSessionManager Json :=
  NewCookieSessionManager demoManager ("sess") ("example.com")

/-- The encrypted wire value of `demoSessVal` under `demoCE` and `demoIV`. -/
def demoCookieValue : List Nat :=
  demoCE.messageEncryptor.encryptAndSign demoIV (jsonMarshal demoSessVal)

/-- A request that carries a well-formed session cookie. -/
def demoReq : Request :=
  { host := "app.example.com".toList, cookies := [("sess", demoCookieValue)] }

/-- The `Validate` hook of the demo session type: it rejects every request,
standing for a session whose fingerprint check fails. -/
def demoValidate : Json → Request → Except CookieError Unit :=
  fun _ _ => Except.error CookieError.validationError

/-- The decrypted cookie `Get` returns for `demoReq`. -/
def demoGetCookie : Cookie := { name := "sess", value := jsonMarshal demoSessVal }

/-- A manager whose encoder always fails, for exercising the failure path of
`Set` (any `CookieEncoder` implementation may fail this way). -/
def failingManager : SecureCookieManager Json :=
  { encryptValue := fun bs => Except.ok bs
    decryptValue := fun bs => Except.ok bs
    encodeValue := fun _ => Except.error CookieError.encodeError
    decodeValue := fun _ => Except.error CookieError.decodeError }

/-- The cookie `Set` emits for the demo manager with a sub-second MaxAge
duration of half a second. -/
def demoSetCookie : Cookie :=
  { name := "sess", value := demoCookieValue, maxAge := 0 }

/-- A request carrying no cookie at all. -/
def demoEmptyReq : Request := { host := [], cookies := [("other", [1, 2])] }

/-! ## Helper lemmas -/

theorem keystream_length (key iv : List Nat) (n : Nat) : (keystream key iv n).length = n := by
  simp [keystream]

theorem computeTag_length (sk iv ct : List Nat) : (computeTag sk iv ct).length = tagLen := by
  simp [computeTag]

theorem xorBytes_cancel : ∀ (p ks : List Nat), ks.length = p.length →
    xorBytes (xorBytes p ks) ks = p := by
  intro p
  induction p with
  | nil => intro ks _; cases ks <;> rfl
  | cons a as ih =>
    intro ks h
    cases ks with
    | nil => simp at h
    | cons b bs =>
      simp only [xorBytes, List.zipWith]
      congr 1
      · show a ^^^ b ^^^ b = a
        rw [Nat.xor_assoc, Nat.xor_self, Nat.xor_zero]
      · exact ih bs (by simpa using h)

theorem decryptAndVerify_append (me : MessageEncryptor) (iv ct : List Nat)
    (hiv : iv.length = ivLen) :
    me.decryptAndVerify (iv ++ ct ++ computeTag me.signKey iv ct) =
      Except.ok (xorBytes ct (keystream me.key iv ct.length)) := by
  have htagl := computeTag_length me.signKey iv ct
  have hlen : (iv ++ ct ++ computeTag me.signKey iv ct).length = ivLen + ct.length + tagLen := by
    simp [hiv, htagl]
    omega
  have h1 : (iv ++ ct ++ computeTag me.signKey iv ct).take ivLen = iv := by
    rw [List.append_assoc]
    exact List.take_left' hiv
  have h2 : (iv ++ ct ++ computeTag me.signKey iv ct).drop ivLen =
      ct ++ computeTag me.signKey iv ct := by
    rw [List.append_assoc]
    exact List.drop_left' hiv
  have h3 : (ct ++ computeTag me.signKey iv ct).length - tagLen = ct.length := by
    simp [htagl]
  simp only [MessageEncryptor.decryptAndVerify]
  rw [if_neg (by omega), h1, h2, h3, List.take_left, List.drop_left, if_pos rfl]

theorem decryptAndVerify_encryptAndSign (me : MessageEncryptor) (iv p : List Nat)
    (hiv : iv.length = ivLen) :
    me.decryptAndVerify (me.encryptAndSign iv p) = Except.ok p := by
  have hksl : (keystream me.key iv p.length).length = p.length := keystream_length ..
  have hctl : (xorBytes p (keystream me.key iv p.length)).length = p.length := by
    simp [xorBytes, hksl]
  simp only [MessageEncryptor.encryptAndSign]
  rw [decryptAndVerify_append me iv _ hiv, hctl, xorBytes_cancel p _ hksl]

theorem set_eq_of_encode_error {V : Type} (cm : SecureCookieManager V) (w : Response)
    (name : String) (opts0 : Option CookieOptions) (v : V) (e : CookieError)
    (h : cm.encodeValue v = Except.error e) :
    cm.Set w name opts0 v = (w, Except.error e) := by
  simp [SecureCookieManager.Set, h]

theorem set_eq_of_encrypt_error {V : Type} (cm : SecureCookieManager V) (w : Response)
    (name : String) (opts0 : Option CookieOptions) (v : V) (bs : List Nat) (e : CookieError)
    (henc : cm.encodeValue v = Except.ok bs) (hcr : cm.encryptValue bs = Except.error e) :
    cm.Set w name opts0 v = (w, Except.error e) := by
  simp [SecureCookieManager.Set, henc, hcr]

theorem set_response_of_error {V : Type} (cm : SecureCookieManager V) (w : Response)
    (name : String) (opts0 : Option CookieOptions) (v : V) (e : CookieError)
    (h : (cm.Set w name opts0 v).2 = Except.error e) :
    (cm.Set w name opts0 v).1 = w := by
  cases henc : cm.encodeValue v with
  | error e2 => simp [SecureCookieManager.Set, henc]
  | ok bs =>
    cases hcr : cm.encryptValue bs with
    | error e2 => simp [SecureCookieManager.Set, henc, hcr]
    | ok ev => simp [SecureCookieManager.Set, henc, hcr] at h

theorem set_response_of_ok {V : Type} (cm : SecureCookieManager V) (w : Response)
    (name : String) (opts0 : Option CookieOptions) (v : V) (c : Cookie)
    (h : (cm.Set w name opts0 v).2 = Except.ok c) :
    (cm.Set w name opts0 v).1 = w ++ [c] := by
  cases henc : cm.encodeValue v with
  | error e2 => simp [SecureCookieManager.Set, henc] at h
  | ok bs =>
    cases hcr : cm.encryptValue bs with
    | error e2 => simp [SecureCookieManager.Set, henc, hcr] at h
    | ok ev =>
      simp only [SecureCookieManager.Set, henc, hcr] at h ⊢
      simp at h
      simp [← h]

theorem durationSeconds_eq_zero (d : Int) (h : d.natAbs < 1000000000) :
    durationSeconds d = 0 := by
  unfold durationSeconds
  cases d with
  | ofNat m =>
    have hm : m < 1000000000 := by simpa [Int.natAbs] using h
    show Int.tdiv (Int.ofNat m) (Int.ofNat 1000000000) = 0
    simp [Int.tdiv, Nat.div_eq_of_lt hm]
  | negSucc m =>
    have hm : m + 1 < 1000000000 := by simpa [Int.natAbs] using h
    show Int.tdiv (Int.negSucc m) (Int.ofNat 1000000000) = 0
    simp [Int.tdiv, Nat.div_eq_of_lt hm]

/-! ## Claim theorems -/

/-- Claim C2: for every byte payload, decrypting-and-verifying the envelope
produced by encrypting-and-signing it returns exactly the payload; at the
cookie level, applying `Encrypt` and then `Decrypt` restores the cookie's
original value (and the whole cookie). The hypothesis fixes the length of the
fresh random IV consumed by `Encrypt` to the suite's IV length. -/
theorem encrypt_decrypt_roundtrip (ce : CookieEncryptor) (iv : List Nat) (c : Cookie)
    (hiv : iv.length = ivLen) :
    (ce.Encrypt iv c).bind ce.Decrypt = Except.ok c ∧
    ce.messageEncryptor.decryptAndVerify (ce.messageEncryptor.encryptAndSign iv c.value) =
      Except.ok c.value := by
  have hrt := decryptAndVerify_encryptAndSign ce.messageEncryptor iv c.value hiv
  refine ⟨?_, hrt⟩
  have hne : ce.messageEncryptor.encryptAndSign iv c.value ≠ [] := by
    intro hnil
    have : (ce.messageEncryptor.encryptAndSign iv c.value).length = 0 := by
      rw [hnil]; rfl
    simp [MessageEncryptor.encryptAndSign, hiv, ivLen] at this
  simp only [CookieEncryptor.Encrypt, Except.bind, CookieEncryptor.Decrypt]
  rw [if_neg (by simpa using hne)]
  simp only [hrt]

/-- Claim C2 witness: the round trip at a concrete encryptor, IV and cookie. -/
theorem encrypt_decrypt_roundtrip_witness :
    (demoCE.Encrypt demoIV demoGetCookie).bind demoCE.Decrypt = Except.ok demoGetCookie :=
  (encrypt_decrypt_roundtrip demoCE demoIV demoGetCookie (by decide)).1

/-- Claim C4: if encoding the value or encrypting the encoded cookie fails,
`Set` returns an error and writes nothing to the response; the response is
extended by exactly the produced cookie when both steps succeed. -/
theorem set_no_partial_write (V : Type) (cm : SecureCookieManager V) (w : Response)
    (name : String) (opts0 : Option CookieOptions) (v : V) :
    (∀ e : CookieError, (cm.Set w name opts0 v).2 = Except.error e →
      (cm.Set w name opts0 v).1 = w) ∧
    (∀ c : Cookie, (cm.Set w name opts0 v).2 = Except.ok c →
      (cm.Set w name opts0 v).1 = w ++ [c]) ∧
    (∀ e : CookieError, cm.encodeValue v = Except.error e →
      cm.Set w name opts0 v = (w, Except.error e)) ∧
    (∀ (bs : List Nat) (e : CookieError), cm.encodeValue v = Except.ok bs →
      cm.encryptValue bs = Except.error e →
      cm.Set w name opts0 v = (w, Except.error e)) :=
  ⟨fun e h => set_response_of_error cm w name opts0 v e h,
   fun c h => set_response_of_ok cm w name opts0 v c h,
   fun e h => set_eq_of_encode_error cm w name opts0 v e h,
   fun bs e henc hcr => set_eq_of_encrypt_error cm w name opts0 v bs e henc hcr⟩

/-- Claim C4 witness: a failing encoder leaves a concrete response untouched. -/
theorem set_no_partial_write_witness :
    (failingManager.Set [] ("sess") none demoSessVal).1 = [] :=
  (set_no_partial_write Json failingManager [] ("sess") none demoSessVal).1
    CookieError.encodeError rfl

/-- Claim C5: `Get` on a request with no cookie of the requested name returns
`http.ErrNoCookie` (NotFound), and `Decrypt` on a cookie with empty value
returns the same distinguished absent error, which is not the integrity
error. -/
theorem get_absent_and_empty_value :
    (∀ (V : Type) (cm : SecureCookieManager V) (req : Request) (name : String),
      (∀ p ∈ req.cookies, p.1 ≠ name) →
      cm.Get req name = Except.error CookieError.noCookie) ∧
    (∀ (ce : CookieEncryptor) (c : Cookie), c.value = [] →
      ce.Decrypt c = Except.error CookieError.noCookie) ∧
    CookieError.noCookie ≠ CookieError.integrityError := by
  refine ⟨?_, ?_, by decide⟩
  · intro V cm req name h
    have hfind : req.cookies.find? (fun p => p.1 == name) = none := by
      apply List.find?_eq_none.mpr
      intro p hp
      simpa using h p hp
    simp [SecureCookieManager.Get, Request.cookie, hfind]
  · intro ce c h
    simp [CookieEncryptor.Decrypt, h]

/-- Claim C5 witness: a request with only a differently named cookie yields
NotFound from a concrete manager. -/
theorem get_absent_and_empty_value_witness :
    demoManager.Get demoEmptyReq ("sess") = Except.error CookieError.noCookie :=
  get_absent_and_empty_value.1 Json demoManager demoEmptyReq ("sess") (by decide)

/-- Claim C6: `Delete` always succeeds and emits a cookie with empty value
and `MaxAge = -1`, carrying over only the policy attributes of the given
options, regardless of any prior response state. -/
theorem delete_emits_expired_cookie (V : Type) (cm : SecureCookieManager V) (w : Response)
    (name : String) (opts0 : Option CookieOptions) :
    cm.Delete w name opts0 =
      (w ++ [{ name := name
               value := []
               httpOnly := (opts0.getD {}).httpOnly
               domain := (opts0.getD {}).domain
               secure := (opts0.getD {}).secure
               path := (opts0.getD {}).path
               maxAge := -1 }],
       Except.ok { name := name
                   value := []
                   httpOnly := (opts0.getD {}).httpOnly
                   domain := (opts0.getD {}).domain
                   secure := (opts0.getD {}).secure
                   path := (opts0.getD {}).path
                   maxAge := -1 }) := rfl

/-- Claim C8: construction of the encryptor derives exactly the two keys,
under the two distinct purpose labels, with 32 bytes for encryption and 64
bytes for signing. -/
theorem new_cookie_encryptor_two_keys (secret : String) (iterations : Nat) :
    (NewCookieEncryptor secret iterations).messageEncryptor.key =
      cacheGenerate secret iterations ("encrypted cookie") 32 ∧
    (NewCookieEncryptor secret iterations).messageEncryptor.signKey =
      cacheGenerate secret iterations ("signed encrypted cookie") 64 ∧
    ("encrypted cookie" : String) ≠ ("signed encrypted cookie" : String) ∧
    (NewCookieEncryptor secret iterations).messageEncryptor.key.length = 32 ∧
    (NewCookieEncryptor secret iterations).messageEncryptor.signKey.length = 64 := by
  refine ⟨rfl, rfl, by decide, ?_, ?_⟩ <;>
    simp [NewCookieEncryptor, cacheGenerate]

/-- Claim C10: `Set` converts the options' MaxAge duration (nanoseconds) to
whole seconds truncated toward zero, and for every duration of magnitude
below one second the emitted cookie has `MaxAge = 0`. -/
theorem set_maxage_truncation (V : Type) (cm : SecureCookieManager V) (w : Response)
    (name : String) (opts : CookieOptions) (v : V) (c : Cookie)
    (h : (cm.Set w name (some opts) v).2 = Except.ok c) :
    c.maxAge = durationSeconds opts.maxAge ∧
    (opts.maxAge.natAbs < 1000000000 → c.maxAge = 0) := by
  have hma : c.maxAge = durationSeconds opts.maxAge := by
    cases henc : cm.encodeValue v with
    | error e2 => simp [SecureCookieManager.Set, henc] at h
    | ok bs =>
      cases hcr : cm.encryptValue bs with
      | error e2 => simp [SecureCookieManager.Set, henc, hcr] at h
      | ok ev =>
        simp [SecureCookieManager.Set, henc, hcr] at h
        rw [← h]
  exact ⟨hma, fun hlt => by rw [hma, durationSeconds_eq_zero _ hlt]⟩

/-- Claim C10 witness: a half-second MaxAge yields a cookie whose MaxAge is
zero, at a concrete manager and value. -/
theorem set_maxage_truncation_witness :
    demoSetCookie.maxAge = 0 :=
  (set_maxage_truncation Json demoManager [] ("sess") { maxAge := 500000000 } demoSessVal
    demoSetCookie rfl).2 (by decide)

/-- Claim C1 counterexample: a request whose session cookie decrypts and
decodes successfully into the session value, whose self-validation hook
rejects every request, yet `Current` returns success instead of the
validation error. -/
theorem current_skips_validation_counterexample :
    demoSM.cm.Get demoReq demoSM.name = Except.ok (demoSessVal, demoGetCookie) ∧
    demoValidate demoSessVal demoReq = Except.error CookieError.validationError ∧
    demoSM.Current demoReq = Except.ok demoSessVal :=
  ⟨rfl, rfl, rfl⟩

/-- Claim C1 (amended): `Current` returns exactly the outcome of `Get` on the
session cookie and never consults any validation hook; whenever lookup,
decryption and decoding succeed it returns the decoded session as success,
regardless of how the session would validate itself against the request. -/
theorem current_returns_get_result (V : Type) (sm : CookieSessionManager V) (req : Request)
    (validate : V → Request → Except CookieError Unit) (s : V) (c : Cookie)
    (h : sm.cm.Get req sm.name = Except.ok (s, c)) :
    sm.Current req = Except.ok s := by
  unfold CookieSessionManager.Current
  rw [h]

/-- Claim C1 (amended) witness: the amended statement at the concrete
manager, request and rejecting hook. -/
theorem current_returns_get_result_witness :
    demoSM.Current demoReq = Except.ok demoSessVal :=
  current_returns_get_result Json demoSM demoReq demoValidate demoSessVal demoGetCookie rfl

/-- Claim C3: whenever the request host needs no port split or splits
successfully, `Update` selects the relaxed non-Secure, domain-less,
root-path attributes exactly for the stripped hosts `localhost`,
`127.0.0.1` and `::1` (the code's loopback names), and the Secure,
configured-domain, root-path attributes for every other host; concretely,
host `localhost:8080` emits a cookie with Secure=false, Domain empty and
Path "/", and host `app.example.com` emits Secure=true, the configured
domain and Path "/". -/
theorem update_host_policy :
    (∀ (V : Type) (sm : CookieSessionManager V) (w : Response) (req : Request) (sess : V)
      (h rest : List Char),
      (req.host.contains ':' = false ∧ h = req.host ∨
        req.host.contains ':' = true ∧ splitHostPort req.host = Except.ok (h, rest)) →
      sm.Update w req sess =
        sm.cm.Set w sm.name
          (some (if h = "localhost".toList ∨ h = "127.0.0.1".toList ∨ h = "::1".toList then
                  { domain := "", path := "/", httpOnly := false, secure := false,
                    maxAge := 0, expires := 0, partitioned := false, sameSite := 0 }
                else
                  { domain := sm.domain, path := "/", httpOnly := false, secure := true,
                    maxAge := 0, expires := 0, partitioned := false, sameSite := 0 }))
          sess) ∧
    ((demoSM.Update [] { host := "localhost:8080".toList } demoSessVal).1.map
      (fun c => (c.secure, c.domain, c.path)) = [(false, "", "/")]) ∧
    ((demoSM.Update [] { host := "app.example.com".toList } demoSessVal).1.map
      (fun c => (c.secure, c.domain, c.path)) = [(true, "example.com", "/")]) := by
  refine ⟨?_, rfl, rfl⟩
  intro V sm w req sess h rest hcase
  rcases hcase with ⟨hnc, hh⟩ | ⟨hc, hsplit⟩
  · subst hh
    unfold CookieSessionManager.Update
    rw [if_neg (by rw [hnc]; exact Bool.false_ne_true)]
  · unfold CookieSessionManager.Update
    rw [if_pos hc, hsplit]

/-- Claim C3 witness: the general attribute-selection statement applied to
the colon-free host `app.example.com`. -/
theorem update_host_policy_witness :
    demoSM.Update [] { host := "app.example.com".toList } demoSessVal =
      demoSM.cm.Set [] demoSM.name
        (some (if "app.example.com".toList = "localhost".toList ∨
                "app.example.com".toList = "127.0.0.1".toList ∨
                "app.example.com".toList = "::1".toList then
                { domain := "", path := "/", httpOnly := false, secure := false,
                  maxAge := 0, expires := 0, partitioned := false, sameSite := 0 }
              else
                { domain := demoSM.domain, path := "/", httpOnly := false, secure := true,
                  maxAge := 0, expires := 0, partitioned := false, sameSite := 0 }))
        demoSessVal :=
  update_host_policy.1 Json demoSM [] { host := "app.example.com".toList } demoSessVal
    ("app.example.com".toList) [] (Or.inl ⟨by decide, rfl⟩)

/-- Claim C9: when the request host contains a colon but cannot be split
into host and port, `Update` returns the split error and writes nothing to
the response; in general `Update` leaves the response unchanged whenever it
returns an error; concretely, the bracketed portless IPv6 host `[::1]`
fails to split. -/
theorem update_split_error_no_write :
    (∀ (V : Type) (sm : CookieSessionManager V) (w : Response) (req : Request) (sess : V)
      (e : CookieError),
      req.host.contains ':' = true → splitHostPort req.host = Except.error e →
      sm.Update w req sess = (w, Except.error e)) ∧
    (∀ (V : Type) (sm : CookieSessionManager V) (w : Response) (req : Request) (sess : V)
      (e : CookieError),
      (sm.Update w req sess).2 = Except.error e → (sm.Update w req sess).1 = w) ∧
    splitHostPort ("[::1]".toList) =
      Except.error (CookieError.addrError ("missing port in address")) := by
  refine ⟨?_, ?_, rfl⟩
  · intro V sm w req sess e hc hsplit
    unfold CookieSessionManager.Update
    rw [if_pos hc, hsplit]
  · intro V sm w req sess e h
    unfold CookieSessionManager.Update at h ⊢
    by_cases hc : req.host.contains ':' = true
    · rw [if_pos hc] at h ⊢
      cases hsplit : splitHostPort req.host with
      | error e2 => rfl
      | ok pr =>
        obtain ⟨ph, pp⟩ := pr
        rw [hsplit] at h
        exact set_response_of_error _ _ _ _ _ e h
    · rw [if_neg hc] at h ⊢
      exact set_response_of_error _ _ _ _ _ e h

/-- Claim C9 witness: `Update` on the unsplittable host `[::1]` returns the
address error and leaves the empty response empty. -/
theorem update_split_error_no_write_witness :
    demoSM.Update [] { host := "[::1]".toList } demoSessVal =
      ([], Except.error (CookieError.addrError ("missing port in address"))) :=
  update_split_error_no_write.1 Json demoSM [] { host := "[::1]".toList } demoSessVal
    (CookieError.addrError ("missing port in address")) (by decide) rfl

/-! ## JSON round-trip development -/

theorem isDigitC_digitChar (n : Nat) (h : n < 10) : isDigitC (digitChar n) = true := by
  interval_cases n <;> decide

theorem digitVal_digitChar (n : Nat) (h : n < 10) : digitVal (digitChar n) = n := by
  interval_cases n <;> decide

theorem isDigitC_ne (c : Char) (h : isDigitC c = true) :
    c ≠ 'n' ∧ c ≠ 't' ∧ c ≠ 'f' ∧ c ≠ quoteChar ∧ c ≠ '[' ∧ c ≠ lcurlChar ∧
      c ≠ ']' ∧ c ≠ ',' ∧ c ≠ rcurlChar ∧ c ≠ ':' := by
  refine ⟨?_, ?_, ?_, ?_, ?_, ?_, ?_, ?_, ?_, ?_⟩ <;>
    (intro hc; rw [hc] at h; exact absurd h (by decide))

theorem encNatAux_acc : ∀ (fuel n : Nat) (acc : List Char),
    encNatAux fuel n acc = encNatAux fuel n [] ++ acc := by
  intro fuel
  induction fuel with
  | zero => intro n acc; rfl
  | succ f ih =>
    intro n acc
    by_cases h : n < 10
    · simp [encNatAux, h]
    · simp only [encNatAux, if_neg h]
      rw [ih (n / 10) (digitChar (n % 10) :: acc), ih (n / 10) [digitChar (n % 10)]]
      simp

theorem encNatAux_fuel : ∀ (f1 f2 n : Nat), n < f1 → n < f2 →
    encNatAux f1 n [] = encNatAux f2 n [] := by
  intro f1
  induction f1 with
  | zero => intro f2 n h1 h2; omega
  | succ g1 ih =>
    intro f2 n h1 h2
    cases f2 with
    | zero => omega
    | succ g2 =>
      by_cases h : n < 10
      · simp [encNatAux, h]
      · simp only [encNatAux, if_neg h]
        rw [encNatAux_acc g1 (n / 10) _, encNatAux_acc g2 (n / 10) _]
        have hd : n / 10 < n := Nat.div_lt_self (by omega) (by decide)
        rw [ih g2 (n / 10) (by omega) (by omega)]

theorem encNat_eq (n : Nat) :
    encNat n = if n < 10 then [digitChar n] else encNat (n / 10) ++ [digitChar (n % 10)] := by
  by_cases h : n < 10
  · simp [encNat, encNatAux, h]
  · rw [if_neg h]
    show encNatAux (n + 1) n [] = _
    simp only [encNatAux, if_neg h]
    rw [encNatAux_acc n (n / 10) _]
    have hd : n / 10 < n := Nat.div_lt_self (by omega) (by decide)
    rw [encNatAux_fuel n (n / 10 + 1) (n / 10) (by omega) (by omega)]
    rfl

theorem encNat_head : ∀ n : Nat, ∃ c t, encNat n = c :: t ∧ isDigitC c = true := by
  intro n
  induction n using Nat.strong_induction_on with
  | _ n ih =>
    rw [encNat_eq]
    by_cases h : n < 10
    · exact ⟨digitChar n, [], by simp [h], isDigitC_digitChar n h⟩
    · obtain ⟨c, t, hct, hd⟩ := ih (n / 10) (Nat.div_lt_self (by omega) (by decide))
      exact ⟨c, t ++ [digitChar (n % 10)], by simp [if_neg h, hct], hd⟩

theorem parseDigits_stop (acc : Nat) (rest : List Char)
    (h : ∀ c, rest.head? = some c → isDigitC c = false) :
    parseDigits acc rest = (acc, rest) := by
  cases rest with
  | nil => rfl
  | cons c cs => simp [parseDigits, h c rfl]

theorem parseDigits_encNat : ∀ n acc : Nat, ∀ rest : List Char,
    parseDigits acc (encNat n ++ rest) =
      parseDigits (acc * 10 ^ (encNat n).length + n) rest := by
  intro n
  induction n using Nat.strong_induction_on with
  | _ n ih =>
    intro acc rest
    by_cases h : n < 10
    · rw [encNat_eq n]
      simp only [if_pos h, List.singleton_append, List.length_singleton]
      simp [parseDigits, isDigitC_digitChar n h, digitVal_digitChar n h]
    · have hd : n / 10 < n := Nat.div_lt_self (by omega) (by decide)
      have hm : n % 10 < 10 := Nat.mod_lt _ (by decide)
      rw [encNat_eq n]
      simp only [if_neg h, List.append_assoc, List.singleton_append]
      rw [ih (n / 10) hd acc (digitChar (n % 10) :: rest)]
      simp only [parseDigits, isDigitC_digitChar _ hm, if_pos, digitVal_digitChar _ hm]
      congr 1
      have hL : (encNat (n / 10) ++ [digitChar (n % 10)]).length =
          (encNat (n / 10)).length + 1 := by simp
      rw [hL, pow_succ]
      have harith : ∀ q : Nat, (q + n / 10) * 10 + n % 10 = q * 10 + n := by
        intro q; omega
      calc (acc * 10 ^ (encNat (n / 10)).length + n / 10) * 10 + n % 10
          = acc * 10 ^ (encNat (n / 10)).length * 10 + n :=
            harith (acc * 10 ^ (encNat (n / 10)).length)
        _ = acc * (10 ^ (encNat (n / 10)).length * 10) + n := by ring

theorem spanNotQuote_append (s rest : List Char) (h : ∀ c ∈ s, c ≠ quoteChar) :
    spanNotQuote (s ++ quoteChar :: rest) = (s, quoteChar :: rest) := by
  induction s with
  | nil => simp [spanNotQuote]
  | cons c cs ih =>
    have hc : c ≠ quoteChar := h c (by simp)
    have ih2 := ih (fun d hd => h d (by simp [hd]))
    simp only [List.cons_append, spanNotQuote, if_neg hc, List.append_eq]
    rw [ih2]

theorem parseJson_null_step (fuel : Nat) (rest : List Char) :
    parseJson (fuel + 1) ('n' :: 'u' :: 'l' :: 'l' :: rest) = some (Json.null, rest) := rfl

theorem parseJson_true_step (fuel : Nat) (rest : List Char) :
    parseJson (fuel + 1) ('t' :: 'r' :: 'u' :: 'e' :: rest) = some (Json.bool true, rest) := rfl

theorem parseJson_false_step (fuel : Nat) (rest : List Char) :
    parseJson (fuel + 1) ('f' :: 'a' :: 'l' :: 's' :: 'e' :: rest) =
      some (Json.bool false, rest) := rfl

theorem parseJson_quote_step (fuel : Nat) (cs : List Char) :
    parseJson (fuel + 1) (quoteChar :: cs) =
      (match (spanNotQuote cs).2 with
       | q :: rest => if q = quoteChar then some (Json.str (spanNotQuote cs).1, rest) else none
       | [] => none) := rfl

theorem parseJson_lbrack_step (fuel : Nat) (cs : List Char) :
    parseJson (fuel + 1) ('[' :: cs) =
      (match cs with
       | [] => none
       | d :: ds =>
         if d = ']' then some (Json.arr JsonList.nil, ds)
         else
           match parseList fuel cs with
           | some (xs, rest) =>
             match rest with
             | e :: es => if e = ']' then some (Json.arr xs, es) else none
             | [] => none
           | none => none) := rfl

theorem parseJson_lcurl_step (fuel : Nat) (cs : List Char) :
    parseJson (fuel + 1) (lcurlChar :: cs) =
      (match cs with
       | [] => none
       | d :: ds =>
         if d = rcurlChar then some (Json.obj JsonMembers.nil, ds)
         else
           match parseMembers fuel cs with
           | some (ms, rest) =>
             match rest with
             | e :: es => if e = rcurlChar then some (Json.obj ms, es) else none
             | [] => none
           | none => none) := rfl

theorem parseJson_digit_step (fuel : Nat) (c : Char) (cs : List Char) (h : isDigitC c = true) :
    parseJson (fuel + 1) (c :: cs) =
      some (Json.num (parseDigits (digitVal c) cs).1, (parseDigits (digitVal c) cs).2) := by
  obtain ⟨h1, h2, h3, h4, h5, h6, _, _, _, _⟩ := isDigitC_ne c h
  simp only [parseJson]
  rw [if_neg h1, if_neg h2, if_neg h3, if_neg h4, if_neg h5, if_neg h6, if_pos h]

theorem parseList_step (fuel : Nat) (s : List Char) :
    parseList (fuel + 1) s =
      (match parseJson fuel s with
       | none => none
       | some (x, rest) =>
         match rest with
         | [] => some (JsonList.cons x JsonList.nil, [])
         | d :: rest1 =>
           if d = ',' then
             match parseList fuel rest1 with
             | some (tl, r) => some (JsonList.cons x tl, r)
             | none => none
           else some (JsonList.cons x JsonList.nil, d :: rest1)) := rfl

theorem parseMembers_step (fuel : Nat) (s : List Char) :
    parseMembers (fuel + 1) s =
      (match s with
       | [] => none
       | c :: cs =>
         if c = quoteChar then
           match (spanNotQuote cs).2 with
           | q :: rest0 =>
             if q = quoteChar then
               match rest0 with
               | colon :: rest1 =>
                 if colon = ':' then
                   match parseJson fuel rest1 with
                   | some (v, rest2) =>
                     match rest2 with
                     | [] => some (JsonMembers.cons (spanNotQuote cs).1 v JsonMembers.nil, [])
                     | d :: rest3 =>
                       if d = ',' then
                         match parseMembers fuel rest3 with
                         | some (tl, r) => some (JsonMembers.cons (spanNotQuote cs).1 v tl, r)
                         | none => none
                       else some (JsonMembers.cons (spanNotQuote cs).1 v JsonMembers.nil,
                              d :: rest3)
                   | none => none
                 else none
               | [] => none
             else none
           | [] => none
         else none) := rfl

theorem encJson_head (v : Json) :
    ∃ c t, encJson v = c :: t ∧ c ≠ ']' ∧ c ≠ ',' ∧ c ≠ rcurlChar := by
  cases v with
  | null => exact ⟨'n', _, rfl, by decide, by decide, by decide⟩
  | bool b =>
    cases b with
    | true => exact ⟨'t', _, by rfl, by decide, by decide, by decide⟩
    | false => exact ⟨'f', _, by rfl, by decide, by decide, by decide⟩
  | num n =>
    obtain ⟨c, t, hct, hd⟩ := encNat_head n
    obtain ⟨_, _, _, _, _, _, g1, g2, g3, _⟩ := isDigitC_ne c hd
    exact ⟨c, t, by simp [encJson, hct], g1, g2, g3⟩
  | str s => exact ⟨quoteChar, _, rfl, by decide, by decide, by decide⟩
  | arr xs => exact ⟨'[', _, rfl, by decide, by decide, by decide⟩
  | obj ms => exact ⟨lcurlChar, _, rfl, by decide, by decide, by decide⟩

theorem jsize_pos (v : Json) : 1 ≤ jsize v := by
  cases v <;> simp [jsize]

theorem lsize_pos (xs : JsonList) (h : xs ≠ JsonList.nil) : 1 ≤ lsize xs := by
  cases xs with
  | nil => exact absurd rfl h
  | cons x tl => simp [lsize]

theorem msize_pos (ms : JsonMembers) (h : ms ≠ JsonMembers.nil) : 1 ≤ msize ms := by
  cases ms with
  | nil => exact absurd rfl h
  | cons k v tl => simp [msize]

mutual

theorem jsize_le_len : (v : Json) → jsize v ≤ (encJson v).length
  | Json.null => by simp [jsize, encJson]
  | Json.bool b => by cases b <;> simp [jsize, encJson]
  | Json.num n => by
    obtain ⟨c, t, hct, _⟩ := encNat_head n
    simp [jsize, encJson, hct]
  | Json.str s => by simp [jsize, encJson]
  | Json.arr xs => by
    have := lsize_le_len xs
    simp only [jsize, encJson, List.length_append, List.length_cons]
    simp
    omega
  | Json.obj ms => by
    have := msize_le_len ms
    simp only [jsize, encJson, List.length_append, List.length_cons]
    simp
    omega

theorem lsize_le_len : (xs : JsonList) → lsize xs ≤ (encList xs).length + 1
  | JsonList.nil => by simp [lsize, encList]
  | JsonList.cons x JsonList.nil => by
    have := jsize_le_len x
    simp [lsize, encList]
    omega
  | JsonList.cons x (JsonList.cons y tl) => by
    have h1 := jsize_le_len x
    have h2 := lsize_le_len (JsonList.cons y tl)
    simp [lsize, encList] at *
    omega

theorem msize_le_len : (ms : JsonMembers) → msize ms ≤ (encMembers ms).length + 1
  | JsonMembers.nil => by simp [msize, encMembers]
  | JsonMembers.cons k v JsonMembers.nil => by
    have := jsize_le_len v
    simp [msize, encMembers]
    omega
  | JsonMembers.cons k v (JsonMembers.cons k2 v2 tl) => by
    have h1 := jsize_le_len v
    have h2 := msize_le_len (JsonMembers.cons k2 v2 tl)
    simp [msize, encMembers] at *
    omega

end

theorem parseJson_lbrack_cons_step (fuel : Nat) (d : Char) (ds : List Char) (hne : d ≠ ']') :
    parseJson (fuel + 1) ('[' :: d :: ds) =
      (match parseList fuel (d :: ds) with
       | some (xs, rest) =>
         match rest with
         | e :: es => if e = ']' then some (Json.arr xs, es) else none
         | [] => none
       | none => none) := by
  have hstep : parseJson (fuel + 1) ('[' :: d :: ds) =
      (if d = ']' then some (Json.arr JsonList.nil, ds)
       else
         match parseList fuel (d :: ds) with
         | some (xs, rest) =>
           match rest with
           | e :: es => if e = ']' then some (Json.arr xs, es) else none
           | [] => none
         | none => none) := rfl
  rw [hstep, if_neg hne]

theorem parseJson_lcurl_cons_step (fuel : Nat) (d : Char) (ds : List Char) (hne : d ≠ rcurlChar) :
    parseJson (fuel + 1) (lcurlChar :: d :: ds) =
      (match parseMembers fuel (d :: ds) with
       | some (ms, rest) =>
         match rest with
         | e :: es => if e = rcurlChar then some (Json.obj ms, es) else none
         | [] => none
       | none => none) := by
  have hstep : parseJson (fuel + 1) (lcurlChar :: d :: ds) =
      (if d = rcurlChar then some (Json.obj JsonMembers.nil, ds)
       else
         match parseMembers fuel (d :: ds) with
         | some (ms, rest) =>
           match rest with
           | e :: es => if e = rcurlChar then some (Json.obj ms, es) else none
           | [] => none
         | none => none) := rfl
  rw [hstep, if_neg hne]

theorem parseMembers_quote_step (fuel : Nat) (cs : List Char) :
    parseMembers (fuel + 1) (quoteChar :: cs) =
      (match (spanNotQuote cs).2 with
       | q :: rest0 =>
         if q = quoteChar then
           match rest0 with
           | colon :: rest1 =>
             if colon = ':' then
               match parseJson fuel rest1 with
               | some (v, rest2) =>
                 match rest2 with
                 | [] => some (JsonMembers.cons (spanNotQuote cs).1 v JsonMembers.nil, [])
                 | d :: rest3 =>
                   if d = ',' then
                     match parseMembers fuel rest3 with
                     | some (tl, r) => some (JsonMembers.cons (spanNotQuote cs).1 v tl, r)
                     | none => none
                   else some (JsonMembers.cons (spanNotQuote cs).1 v JsonMembers.nil,
                          d :: rest3)
               | none => none
             else none
           | [] => none
         else none
       | [] => none) := rfl

theorem parse_enc : ∀ fuel : Nat,
    (∀ (v : Json) (rest : List Char), Json.representable v = true → jsize v < fuel →
      (∀ c, rest.head? = some c → isDigitC c = false) →
      parseJson fuel (encJson v ++ rest) = some (v, rest)) ∧
    (∀ (xs : JsonList) (rest : List Char), JsonList.representable xs = true →
      xs ≠ JsonList.nil → lsize xs < fuel →
      (∀ c, rest.head? = some c → isDigitC c = false ∧ c ≠ ',') →
      parseList fuel (encList xs ++ rest) = some (xs, rest)) ∧
    (∀ (ms : JsonMembers) (rest : List Char), JsonMembers.representable ms = true →
      ms ≠ JsonMembers.nil → msize ms < fuel →
      (∀ c, rest.head? = some c → isDigitC c = false ∧ c ≠ ',') →
      parseMembers fuel (encMembers ms ++ rest) = some (ms, rest)) := by
  intro fuel
  induction fuel with
  | zero =>
    refine ⟨fun v _ _ hsz _ => absurd hsz (by have := jsize_pos v; omega),
            fun xs _ _ hne hsz _ => absurd hsz (by have := lsize_pos xs hne; omega),
            fun ms _ _ hne hsz _ => absurd hsz (by have := msize_pos ms hne; omega)⟩
  | succ fuel ih =>
    obtain ⟨ihJ, ihL, ihM⟩ := ih
    refine ⟨?_, ?_, ?_⟩
    · -- values
      intro v rest hrep hsz hrest
      cases v with
      | null => exact parseJson_null_step fuel rest
      | bool b =>
        cases b with
        | true => exact parseJson_true_step fuel rest
        | false => exact parseJson_false_step fuel rest
      | num n =>
        obtain ⟨c, t, hct, hd⟩ := encNat_head n
        have hshape : encJson (Json.num n) ++ rest = c :: (t ++ rest) := by
          show encNat n ++ rest = _
          rw [hct]
          rfl
        rw [hshape, parseJson_digit_step fuel c (t ++ rest) hd]
        have hstep : parseDigits 0 (c :: (t ++ rest)) = parseDigits (digitVal c) (t ++ rest) := by
          simp [parseDigits, hd]
        have hparse : parseDigits (digitVal c) (t ++ rest) = (n, rest) := by
          rw [← hstep]
          have hfit : c :: (t ++ rest) = encNat n ++ rest := by rw [hct]; rfl
          rw [hfit, parseDigits_encNat n 0 rest]
          simpa using parseDigits_stop n rest hrest
        rw [hparse]
      | str s =>
        have hall : ∀ d ∈ s, d ≠ quoteChar := by
          simp [Json.representable] at hrep
          exact hrep
        have hshape : encJson (Json.str s) ++ rest = quoteChar :: (s ++ quoteChar :: rest) := by
          show (quoteChar :: s ++ [quoteChar]) ++ rest = _
          simp
        rw [hshape, parseJson_quote_step, spanNotQuote_append s rest hall]
        simp
      | arr xs =>
        cases xs with
        | nil =>
          have hshape : encJson (Json.arr JsonList.nil) ++ rest = '[' :: (']' :: rest) := rfl
          rw [hshape, parseJson_lbrack_step]
          simp
        | cons x tl =>
          have hrepL : JsonList.representable (JsonList.cons x tl) = true := by
            simpa [Json.representable] using hrep
          have hsz' : lsize (JsonList.cons x tl) < fuel := by
            simp [jsize] at hsz
            omega
          have hL := ihL (JsonList.cons x tl) (']' :: rest) hrepL (by simp) hsz'
            (by intro c hc; simp at hc; subst hc; exact ⟨by decide, by decide⟩)
          obtain ⟨c0, t0, hc0, hne1, _, _⟩ := encJson_head x
          have hexp : ∃ u, encList (JsonList.cons x tl) = c0 :: u := by
            cases tl with
            | nil => exact ⟨t0, by show encJson x = _; rw [hc0]⟩
            | cons y tl2 =>
              exact ⟨t0 ++ ',' :: encList (JsonList.cons y tl2),
                by show encJson x ++ _ = _; rw [hc0]; rfl⟩
          obtain ⟨u, hu⟩ := hexp
          have hcs : encList (JsonList.cons x tl) ++ (']' :: rest) =
              c0 :: (u ++ ']' :: rest) := by rw [hu]; rfl
          have hshape : encJson (Json.arr (JsonList.cons x tl)) ++ rest =
              '[' :: (encList (JsonList.cons x tl) ++ (']' :: rest)) := by
            show ('[' :: encList (JsonList.cons x tl) ++ [']']) ++ rest = _
            simp
          rw [hshape, hcs, parseJson_lbrack_cons_step fuel c0 _ hne1, ← hcs, hL]
          simp
      | obj ms =>
        cases ms with
        | nil =>
          have hshape : encJson (Json.obj JsonMembers.nil) ++ rest =
              lcurlChar :: (rcurlChar :: rest) := rfl
          rw [hshape, parseJson_lcurl_step]
          simp
        | cons k v tl =>
          have hrepM : JsonMembers.representable (JsonMembers.cons k v tl) = true := by
            simpa [Json.representable] using hrep
          have hsz' : msize (JsonMembers.cons k v tl) < fuel := by
            simp [jsize] at hsz
            omega
          have hM := ihM (JsonMembers.cons k v tl) (rcurlChar :: rest) hrepM (by simp) hsz'
            (by intro c hc; simp at hc; subst hc; exact ⟨by decide, by decide⟩)
          have hexp : ∃ u, encMembers (JsonMembers.cons k v tl) = quoteChar :: u := by
            cases tl with
            | nil => exact ⟨_, rfl⟩
            | cons k2 v2 tl2 => exact ⟨_, rfl⟩
          obtain ⟨u, hu⟩ := hexp
          have hcs : encMembers (JsonMembers.cons k v tl) ++ (rcurlChar :: rest) =
              quoteChar :: (u ++ rcurlChar :: rest) := by rw [hu]; rfl
          have hshape : encJson (Json.obj (JsonMembers.cons k v tl)) ++ rest =
              lcurlChar :: (encMembers (JsonMembers.cons k v tl) ++ (rcurlChar :: rest)) := by
            show (lcurlChar :: encMembers (JsonMembers.cons k v tl) ++ [rcurlChar]) ++ rest = _
            simp
          rw [hshape, hcs, parseJson_lcurl_cons_step fuel quoteChar _ (by decide), ← hcs, hM]
          simp
    · -- list elements
      intro xs rest hrep hne hsz hcond
      cases xs with
      | nil => exact absurd rfl hne
      | cons x tl =>
        have hrepx : Json.representable x = true := by
          simp [JsonList.representable] at hrep
          exact hrep.1
        have hreptl : JsonList.representable tl = true := by
          simp [JsonList.representable] at hrep
          exact hrep.2
        rw [parseList_step]
        cases tl with
        | nil =>
          have hszx : jsize x < fuel := by
            simp [lsize] at hsz
            omega
          have hJ := ihJ x rest hrepx hszx (fun c hc => (hcond c hc).1)
          rw [show encList (JsonList.cons x JsonList.nil) = encJson x from rfl, hJ]
          cases rest with
          | nil => rfl
          | cons d r1 =>
            have hd := (hcond d rfl).2
            simp [hd]
        | cons y tl2 =>
          have hszx : jsize x < fuel := by
            have := lsize_pos (JsonList.cons y tl2) (by simp)
            simp [lsize] at hsz this ⊢
            omega
          have hsztl : lsize (JsonList.cons y tl2) < fuel := by
            have := jsize_pos x
            simp [lsize] at hsz ⊢
            omega
          have hshape : encList (JsonList.cons x (JsonList.cons y tl2)) ++ rest =
              encJson x ++ (',' :: (encList (JsonList.cons y tl2) ++ rest)) := by
            show (encJson x ++ ',' :: encList (JsonList.cons y tl2)) ++ rest = _
            simp
          have hJ := ihJ x (',' :: (encList (JsonList.cons y tl2) ++ rest)) hrepx hszx
            (by intro c hc; simp at hc; subst hc; decide)
          have hLtl := ihL (JsonList.cons y tl2) rest hreptl (by simp) hsztl hcond
          rw [hshape, hJ]
          simp [hLtl]
    · -- object members
      intro ms rest hrep hne hsz hcond
      cases ms with
      | nil => exact absurd rfl hne
      | cons k v tl =>
        have hrep' := hrep
        simp [JsonMembers.representable] at hrep'
        obtain ⟨⟨hk, hv⟩, htl⟩ := hrep'
        have hszv : jsize v < fuel := by
          simp [msize] at hsz
          omega
        cases tl with
        | nil =>
          have hshape : encMembers (JsonMembers.cons k v JsonMembers.nil) ++ rest =
              quoteChar :: (k ++ quoteChar :: ':' :: (encJson v ++ rest)) := by
            show (quoteChar :: k ++ quoteChar :: ':' :: encJson v) ++ rest = _
            simp
          have hJ := ihJ v rest hv hszv (fun c hc => (hcond c hc).1)
          rw [hshape, parseMembers_quote_step, spanNotQuote_append k _ hk]
          cases rest with
          | nil =>
            have hJ0 : parseJson fuel (encJson v) = some (v, []) := by simpa using hJ
            simp [hJ0]
          | cons d r1 =>
            have hd := (hcond d rfl).2
            simp [hJ, hd]
        | cons k2 v2 tl2 =>
          have hsztl : msize (JsonMembers.cons k2 v2 tl2) < fuel := by
            have := jsize_pos v
            simp [msize] at hsz ⊢
            omega
          have hshape : encMembers (JsonMembers.cons k v (JsonMembers.cons k2 v2 tl2)) ++ rest =
              quoteChar :: (k ++ quoteChar :: ':' ::
                (encJson v ++ (',' :: (encMembers (JsonMembers.cons k2 v2 tl2) ++ rest)))) := by
            show (quoteChar :: k ++ quoteChar :: ':' :: encJson v ++
              ',' :: encMembers (JsonMembers.cons k2 v2 tl2)) ++ rest = _
            simp
          have hJ := ihJ v (',' :: (encMembers (JsonMembers.cons k2 v2 tl2) ++ rest)) hv hszv
            (by intro c hc; simp at hc; subst hc; decide)
          have hMtl := ihM (JsonMembers.cons k2 v2 tl2) rest htl (by simp) hsztl hcond
          rw [hshape, parseMembers_quote_step, spanNotQuote_append k _ hk]
          simp [hJ, hMtl]

theorem jsonUnmarshal_jsonMarshal (v : Json) (hrep : Json.representable v = true) :
    jsonUnmarshal (jsonMarshal v) = some v := by
  have hmap : ((encJson v).map Char.toNat).map Char.ofNat = encJson v := by
    rw [List.map_map]
    have hcomp : (Char.ofNat ∘ Char.toNat) = id := by
      funext c
      simp [Char.ofNat_toNat]
    rw [hcomp, List.map_id]
  have hlen : jsize v < (encJson v).length + 1 := by
    have := jsize_le_len v
    omega
  have hparse := (parse_enc ((encJson v).length + 1)).1 v [] hrep hlen (by intro c hc; simp at hc)
  rw [List.append_nil] at hparse
  simp only [jsonUnmarshal, jsonMarshal, hmap, hparse]

/-- Claim C7: for every representable JSON value, decoding the bytes the JSON
encoder produced for it recovers the value: `Decode` after `Encode` on a
cookie returns the original value. -/
theorem json_encoder_roundtrip (v : Json) (c : Cookie) (hrep : Json.representable v = true) :
    (JSONCookieEncoder.Encode v c).bind JSONCookieEncoder.Decode = Except.ok v := by
  simp only [JSONCookieEncoder.Encode, Except.bind, JSONCookieEncoder.Decode]
  simp [jsonUnmarshal_jsonMarshal v hrep]

/-- Claim C7 witness: the round trip at the concrete session object with
uid = 42. -/
theorem json_encoder_roundtrip_witness :
    (JSONCookieEncoder.Encode demoSessVal {}).bind JSONCookieEncoder.Decode =
      Except.ok demoSessVal :=
  json_encoder_roundtrip demoSessVal {} (by decide)
